import Mathlib

/-!
Shallow embedding of the Tetris engine in `tetris.py` (nsarathy/tetris-arcade-machine).

The engine is single-threaded and timer-driven; every mutation of the game
happens synchronously inside one command handler, so the whole engine is
modelled as pure functions on an explicit `GameState` record.  Randomness
(`random.choice` in `new_piece`) is modelled as an oracle stream
`rand : Nat → PieceKind` read at an index `rix` that advances on each draw.
The persistence sink (`Game.objects.insert` in `persist_game`) is modelled as
an append-only `events` list carrying the inserted (name, score, lines, level)
fields; the wall-clock timestamp column is environment input and is omitted.
Rendering (`draw*`), tkinter widgets, and the login dialogs have no game-state
effect and are not modelled.
-/

namespace TetrisPy

/-- The 7 piece kinds, the keys of the `SHAPES` dict. -/
inductive PieceKind
  | I | J | L | O | S | T | Z
deriving DecidableEq, Repr, Fintype

open PieceKind

/-- `COLS = 10` in the source. -/
def COLS : Nat := 10

/-- `ROWS = 20` in the source. -/
def ROWS : Nat := 20

/-- `START_DELAY = 500` (ms). -/
def START_DELAY : Int := 500

/-- `LEVEL_STEP = 40`. -/
def LEVEL_STEP : Int := 40

/-- `LINES_PER_LEVEL = 10`. -/
def LINES_PER_LEVEL : Nat := 10

/-- The `SHAPES` table: for each kind, the ordered list of rotation states,
each a list of 4 relative (column, row) offsets. -/
def SHAPES : PieceKind → List (List (Int × Int))
  | .I => [[(0, 1), (1, 1), (2, 1), (3, 1)], [(2, 0), (2, 1), (2, 2), (2, 3)]]
  | .J => [[(0, 0), (0, 1), (1, 1), (2, 1)],
           [(1, 0), (2, 0), (1, 1), (1, 2)],
           [(0, 1), (1, 1), (2, 1), (2, 2)],
           [(1, 0), (1, 1), (0, 2), (1, 2)]]
  | .L => [[(2, 0), (0, 1), (1, 1), (2, 1)],
           [(1, 0), (1, 1), (1, 2), (2, 2)],
           [(0, 1), (1, 1), (2, 1), (0, 2)],
           [(0, 0), (1, 0), (1, 1), (1, 2)]]
  | .O => [[(1, 0), (2, 0), (1, 1), (2, 1)]]
  | .S => [[(1, 0), (2, 0), (0, 1), (1, 1)], [(1, 0), (1, 1), (2, 1), (2, 2)]]
  | .T => [[(1, 0), (0, 1), (1, 1), (2, 1)],
           [(1, 0), (1, 1), (2, 1), (1, 2)],
           [(0, 1), (1, 1), (2, 1), (1, 2)],
           [(1, 0), (0, 1), (1, 1), (1, 2)]]
  | .Z => [[(0, 0), (1, 0), (1, 1), (2, 1)], [(2, 0), (1, 1), (2, 1), (1, 2)]]

/-- The `COLORS` table restricted to piece kinds (the extra ghost color `"G"`
is only used by `draw_ghost`, which is not modelled). -/
def COLORS : PieceKind → String
  | .I => "#53d1f5"
  | .J => "#5a79ff"
  | .L => "#ff9f40"
  | .O => "#ffd93b"
  | .S => "#7dd36a"
  | .T => "#ba6bff"
  | .Z => "#ff6b6b"

/-- `class Piece`: kind, rotation index, and grid position of the origin. -/
structure Piece where
  kind : PieceKind
  rot : Nat
  x : Int
  y : Int
deriving DecidableEq, Repr

/-- `Piece.__init__`: a fresh piece of the given kind at rotation 0, `x = 3`,
`y = 0`. -/
def initPiece (k : PieceKind) : Piece :=
  { kind := k, rot := 0, x := 3, y := 0 }

/-- `Piece.blocks`: `SHAPES[self.kind][self.rot]`.  In the source `rot` is
always kept below the rotation count (spawn sets 0, `rotated` reduces mod the
count), so the Python indexing never fails; an out-of-range `rot` defaults to
`[]` here. -/
def Piece.blocks (p : Piece) : List (Int × Int) :=
  (SHAPES p.kind).getD p.rot []

/-- `Piece.rotated`: same kind and position, rotation advanced by one modulo
the kind's rotation-state count. -/
def Piece.rotated (p : Piece) : Piece :=
  { p with rot := (p.rot + 1) % (SHAPES p.kind).length }

/-- `Piece.moved(dx, dy)`: same kind and rotation, translated position. -/
def Piece.moved (p : Piece) (dx dy : Int) : Piece :=
  { p with x := p.x + dx, y := p.y + dy }

/-- A board cell: `None` or a color string (the grid rows of `self.board`). -/
abbrev Cell := Option String

/-- The board: a list of `ROWS` rows, each a list of `COLS` cells. -/
abbrev Board := List (List Cell)

/-- Python truthiness of a cell as used in `valid` (`if self.board[y][x]`) and
`clear_lines` (`all(self.board[i][c] ...)`): `None` is falsy, a string is
truthy iff non-empty.  (All stored colors are non-empty hex strings.) -/
def truthy : Cell → Bool
  | none => false
  | some s => s ≠ ""

/-- A fresh empty row, `[None for _ in range(COLS)]`. -/
def emptyRow : List Cell := List.replicate COLS none

/-- A fresh empty board, `[[None ...] for _ in range(ROWS)]`. -/
def emptyBoard : Board := List.replicate ROWS emptyRow

/-- Read the cell `board[y][x]`; only used after the bounds checks of `valid`,
so the defaults are never hit in verified uses. -/
def cellAt (g : Board) (y x : Int) : Cell :=
  (g.getD y.toNat []).getD x.toNat none

/-- One iteration of the loop in `Tetris.valid`: the block passes iff it is
inside `[0, COLS) × [0, ROWS)` and the cell there is not occupied. -/
def blockOk (g : Board) (p : Piece) (b : Int × Int) : Bool :=
  if p.x + b.1 < 0 ∨ (COLS : Int) ≤ p.x + b.1 ∨
     p.y + b.2 < 0 ∨ (ROWS : Int) ≤ p.y + b.2 then false
  else !(truthy (cellAt g (p.y + b.2) (p.x + b.1)))

/-- `Tetris.valid`: every block of the piece must pass the bounds and
occupancy checks (the Python loop returns `False` at the first failing block
and `True` after the loop; the loop has no side effects). -/
def valid (g : Board) (p : Piece) : Bool :=
  p.blocks.all (blockOk g p)

/-- Write `board[y][x] = color`.  The source reaches this statement only with
`0 ≤ y` (checked in `lock`) and, in every verified run, with in-range `y < ROWS`
and `0 ≤ x < COLS` (guaranteed because the locked piece passed `valid`);
`List.set` is a no-op out of range. -/
def setCell (g : Board) (y x : Int) (c : String) : Board :=
  g.set y.toNat ((g.getD y.toNat []).set x.toNat (some c))

/-- The write loop of `Tetris.lock`: walk the blocks in order; on the first
block with absolute row `< 0` stop and signal overflow (`true`), otherwise
write the color and continue.  Returns the written board and the overflow
flag. -/
def lockWrite (p : Piece) (color : String) : List (Int × Int) → Board → Board × Bool
  | [], g => (g, false)
  | b :: rest, g =>
      let y := p.y + b.2
      if y < 0 then (g, true)
      else lockWrite p color rest (setCell g y (p.x + b.1) color)

/-- `all(self.board[i][c] for c in range(COLS))`: row `i` is full. -/
def rowFull (g : Board) (i : Nat) : Bool :=
  (List.range COLS).all (fun c => truthy ((g.getD i []).getD c none))

/-- `full = [i for i in range(ROWS) if all(self.board[i][c] ...)]`. -/
def fullRows (g : Board) : List Nat :=
  (List.range ROWS).filter (rowFull g)

/-- The clearing loop of `clear_lines`:
`for i in reversed(full): del self.board[i]; self.board.insert(0, empty)`.
Each iteration deletes the row currently at index `i` and pushes a fresh empty
row on top (the interleaving is exactly the source's, including its effect on
the indices of the remaining iterations). -/
def clearLoop : List Nat → Board → Board
  | [], g => g
  | i :: rest, g => clearLoop rest (emptyRow :: g.eraseIdx i)

/-- The `scores` dict `{1: 100, 2: 300, 3: 500, 4: 800}` read with
`scores.get(n, 0)`. -/
def lineScore : Nat → Nat
  | 1 => 100
  | 2 => 300
  | 3 => 500
  | 4 => 800
  | _ => 0

/-- The whole game state of `class Tetris` plus the model-level oracle for
`random.choice` (`rand`/`rix`) and the persistence-event log (`events`). -/
structure GameState where
  board : Board
  cur : Piece
  next : Piece
  score : Nat
  lines : Nat
  level : Nat
  delay : Int
  paused : Bool
  game_over : Bool
  player_name : Option String
  rand : Nat → PieceKind
  rix : Nat
  events : List (String × Nat × Nat × Nat)

/-- `Tetris.persist_game`: if a player name is set, insert one row carrying
the current name/score/lines/level (the timestamp column is environment
input and is not modelled). -/
def persist_game (s : GameState) : GameState :=
  match s.player_name with
  | none => s
  | some n => { s with events := s.events ++ [(n, s.score, s.lines, s.level)] }

/-- `Tetris.clear_lines`: detect the full rows once, run the delete/insert
loop over them in reversed order, then apply scoring and leveling.  Nothing
happens when no row is full. -/
def clear_lines (s : GameState) : GameState :=
  let full := fullRows s.board
  let n := full.length
  if n = 0 then s
  else
    let g := clearLoop full.reverse s.board
    let score := s.score + lineScore n * s.level
    let lines := s.lines + n
    if lines / LINES_PER_LEVEL + 1 > s.level then
      { s with board := g, score := score, lines := lines, level := s.level + 1,
               delay := max 80 (START_DELAY - LEVEL_STEP * ((s.level + 1 : Int) - 1)) }
    else
      { s with board := g, score := score, lines := lines }

/-- `Tetris.lock`: write the current piece; on overflow (`y < 0` reached) set
`game_over` and persist with the stats as they are; otherwise clear lines,
advance `cur ← next`, draw a fresh `next`, and if the new current piece is
invalid set `game_over` and persist. -/
def lock (s : GameState) : GameState :=
  let r := lockWrite s.cur (COLORS s.cur.kind) s.cur.blocks s.board
  if r.2 then
    persist_game { s with board := r.1, game_over := true }
  else
    let s2 := clear_lines { s with board := r.1 }
    let s3 := { s2 with cur := s2.next, next := initPiece (s2.rand s2.rix),
                        rix := s2.rix + 1 }
    if valid s3.board s3.cur then s3
    else persist_game { s3 with game_over := true }

/-- `Tetris.move(dx, dy)`: no-op while paused or over; otherwise take the
translated piece if valid, and if a downward step (`dy = 1`) is blocked, lock
instead. -/
def move (s : GameState) (dx dy : Int) : GameState :=
  if s.paused || s.game_over then s
  else
    let p := s.cur.moved dx dy
    if valid s.board p then { s with cur := p }
    else if dy = 1 then lock s
    else s

/-- `Tetris.soft_drop`: guard, then `move(0,1)` followed unconditionally by
`score += 1` (also when the move locked the piece, and after any game-over
persist inside the lock). -/
def soft_drop (s : GameState) : GameState :=
  if s.paused || s.game_over then s
  else
    let s1 := move s 0 1
    { s1 with score := s1.score + 1 }

/-- Iteration bound for the `while True` loop of `hard_drop`.  The source loop
always terminates because a piece whose blocks have non-negative row offsets
leaves the board after at most `ROWS - y` downward steps, at which point
`valid` fails; this fuel is proved sufficient below for every piece with a
real rotation state. -/
def dropFuel (p : Piece) : Nat := ((ROWS : Int) - p.y).toNat + 4

/-- The `while True` loop of `hard_drop`: step down while valid, returning the
final piece and the number of successful steps. -/
def dropAux (g : Board) : Nat → Piece → Piece × Nat
  | 0, p => (p, 0)
  | fuel + 1, p =>
      let q := p.moved 0 1
      if valid g q then
        let r := dropAux g fuel q
        (r.1, r.2 + 1)
      else (p, 0)

/-- `Tetris.hard_drop`: guard, drop the piece as far as it goes, lock, then
add `dist * 2` to the score (after the lock, hence after any game-over
persist). -/
def hard_drop (s : GameState) : GameState :=
  if s.paused || s.game_over then s
  else
    let r := dropAux s.board (dropFuel s.cur) s.cur
    let s1 := lock { s with cur := r.1 }
    { s1 with score := s1.score + r.2 * 2 }

/-- The kick-search loop of `Tetris.rotate`: try the offsets in order and
return the first valid placement of the rotated candidate, if any. -/
def kickSearch (g : Board) (p : Piece) : List Int → Option Piece
  | [] => none
  | k :: ks =>
      let c := p.moved k 0
      if valid g c then some c else kickSearch g p ks

/-- `Tetris.rotate`: guard, then try the kick offsets `[0, -1, 1, -2, 2]` on
the rotated candidate; accept the first valid placement, else leave the state
unchanged. -/
def rotateCmd (s : GameState) : GameState :=
  if s.paused || s.game_over then s
  else
    match kickSearch s.board s.cur.rotated [0, -1, 1, -2, 2] with
    | some c => { s with cur := c }
    | none => s

/-- `Tetris.toggle_pause`: ignored when over, otherwise flip `paused`. -/
def toggle_pause (s : GameState) : GameState :=
  if s.game_over then s else { s with paused := !s.paused }

/-- `Tetris.reset`: empty board, two fresh random pieces, initial counters. -/
def reset (s : GameState) : GameState :=
  { s with board := emptyBoard,
           cur := initPiece (s.rand s.rix),
           next := initPiece (s.rand (s.rix + 1)),
           rix := s.rix + 2,
           score := 0, lines := 0, level := 1, delay := START_DELAY,
           paused := false, game_over := false }

/-- `Tetris.restart`: `reset` (the redraw has no state effect). -/
def restart (s : GameState) : GameState := reset s

/-- `Tetris.tick` (state effect only): a gravity step unless paused or over.
The re-scheduling of the timer is the environment's concern. -/
def tick (s : GameState) : GameState :=
  if !s.paused && !s.game_over then move s 0 1 else s

/-- The input command surface (`bind_keys` plus the gravity tick). -/
inductive Cmd
  | moveLeft | moveRight | softDrop | hardDrop | rotateCW | togglePause
  | restartCmd | gravity
deriving DecidableEq, Repr

/-- Dispatch one command to its handler, exactly as `bind_keys` wires them. -/
def step (c : Cmd) (s : GameState) : GameState :=
  match c with
  | .moveLeft => move s (-1) 0
  | .moveRight => move s 1 0
  | .softDrop => soft_drop s
  | .hardDrop => hard_drop s
  | .rotateCW => rotateCmd s
  | .togglePause => toggle_pause s
  | .restartCmd => restart s
  | .gravity => tick s

/-- The state right after `Tetris.__init__` ran `reset` and the login stored a
player name: the session start state. -/
def mkInit (pn : Option String) (rand : Nat → PieceKind) : GameState :=
  { board := emptyBoard, cur := initPiece (rand 0), next := initPiece (rand 1),
    score := 0, lines := 0, level := 1, delay := START_DELAY,
    paused := false, game_over := false, player_name := pn,
    rand := rand, rix := 2, events := [] }

/-- Run a list of commands from a state. -/
def run (s : GameState) (cs : List Cmd) : GameState :=
  cs.foldl (fun t c => step c t) s

/-- All blocks of the piece sit at absolute row `≥ 0`. -/
def RowsOk (p : Piece) : Prop := ∀ b ∈ p.blocks, 0 ≤ p.y + b.2

/-- Both active pieces have all their blocks at absolute row `≥ 0`. -/
def PieceInv (s : GameState) : Prop := RowsOk s.cur ∧ RowsOk s.next

/-- The persistence-event invariant: before game over the log is empty, at
game over it holds exactly one record when a player identity is set and none
otherwise. -/
def EvInv (s : GameState) : Prop :=
  (s.game_over = false → s.events = []) ∧
  (s.game_over = true → s.events.length = (if s.player_name.isSome then 1 else 0))

/-- The invalidity condition exactly as claim C1 words it: some block outside
columns `[0, COLS)`, or at row `≥ ROWS`, or overlapping an occupied cell at a
row `≥ 0` — with blocks at row `< 0` treated as always passable.  Stated from
the spec's words, to be compared against the source's `valid`. -/
def specInvalidC1 (g : Board) (p : Piece) : Bool :=
  p.blocks.any (fun b =>
    decide (p.x + b.1 < 0) || decide ((COLS : Int) ≤ p.x + b.1) ||
    decide ((ROWS : Int) ≤ p.y + b.2) ||
    (decide (0 ≤ p.y + b.2) && truthy (cellAt g (p.y + b.2) (p.x + b.1))))

/-! ### Concrete fixture states used by witnesses and counterexamples -/

/-- A constant piece-kind oracle. -/
def randI : Nat → PieceKind := fun _ => PieceKind.I

/-- A fresh running session on the empty board. -/
def sRun : GameState := mkInit none randI

/-- A paused session. -/
def sPaused : GameState := { mkInit none randI with paused := true }

/-- A completely full row (color `Z`). -/
def fullRowR : List Cell := List.replicate COLS (some "#ff6b6b")

/-- A distinctive non-full row: one `I`-colored cell in column 0. -/
def markerRow : List Cell := some "#53d1f5" :: List.replicate (COLS - 1) none

/-- Rows 0–16 empty, row 17 the marker row, rows 18 and 19 full. -/
def bugBoard : Board := List.replicate 17 emptyRow ++ [markerRow, fullRowR, fullRowR]

/-- A session whose board has two full bottom rows under a marker row. -/
def sBug : GameState := { mkInit none randI with board := bugBoard }

/-- A row with exactly columns 4 and 5 occupied. -/
def colRow : List Cell :=
  [none, none, none, none, some "#ffd93b", some "#ffd93b", none, none, none, none]

/-- Rows 0–2 empty, rows 3–19 with columns 4 and 5 occupied: an `O` piece can
fall exactly one step before locking, and the next `O` spawn is blocked. -/
def c9Board : Board := List.replicate 3 emptyRow ++ List.replicate 17 colRow

/-- A session about to end: hard-dropping the `O` piece locks it after one
step and the spawned next piece is immediately invalid. -/
def sC9 : GameState :=
  { mkInit (some "p") (fun _ => PieceKind.O) with
      board := c9Board, cur := initPiece PieceKind.O, next := initPiece PieceKind.O }

/-- A state whose current `J` piece has a block at absolute row `-1`. -/
def sOv : GameState :=
  { mkInit none (fun _ => PieceKind.J) with
      cur := { kind := PieceKind.J, rot := 0, x := 3, y := -1 } }

/-- A session at 9 cleared lines with one full row on the board: the next
clear crosses the 10-line boundary. -/
def sLvl : GameState :=
  { mkInit none randI with
      board := List.replicate 19 emptyRow ++ [fullRowR], lines := 9 }

/-! ### Basic piece and shape lemmas -/

lemma Piece.moved_blocks (p : Piece) (dx dy : Int) :
    (p.moved dx dy).blocks = p.blocks := rfl

lemma Piece.moved_moved (p : Piece) (a b c d : Int) :
    (p.moved a b).moved c d = p.moved (a + c) (b + d) := by
  simp [Piece.moved, add_assoc]

lemma Piece.moved_zero (p : Piece) : p.moved 0 0 = p := by
  simp [Piece.moved]

lemma shapes_ne_nil : ∀ k : PieceKind, ∀ l ∈ SHAPES k, l ≠ [] := by decide

lemma shapes_row_nonneg : ∀ k : PieceKind, ∀ l ∈ SHAPES k, ∀ b ∈ l, 0 ≤ b.2 := by
  decide

lemma shapes_head_min :
    ∀ k : PieceKind, ∀ l ∈ SHAPES k, ∀ b ∈ l, (l.headD (0, 0)).2 ≤ b.2 := by
  decide

lemma shapes_length_pos : ∀ k : PieceKind, 0 < (SHAPES k).length := by decide

lemma getD_mem_or {α : Type _} (l : List α) (n : Nat) (d : α) :
    l.getD n d ∈ l ∨ l.getD n d = d := by
  induction l generalizing n with
  | nil => right; simp
  | cons a t ih =>
      cases n with
      | zero => left; simp
      | succ m =>
          rcases ih m with h | h
          · left; simp only [List.getD_cons_succ]; exact List.mem_cons_of_mem _ h
          · right; simpa using h

lemma blocks_mem_or (p : Piece) : p.blocks ∈ SHAPES p.kind ∨ p.blocks = [] :=
  getD_mem_or _ _ _

lemma blocks_row_nonneg (p : Piece) : ∀ b ∈ p.blocks, 0 ≤ b.2 := by
  rcases blocks_mem_or p with h | h
  · exact shapes_row_nonneg p.kind _ h
  · simp [h]

lemma blocks_ne_nil (p : Piece) (hr : p.rot < (SHAPES p.kind).length) :
    p.blocks ≠ [] := by
  have : p.blocks ∈ SHAPES p.kind := by
    unfold Piece.blocks
    rw [List.getD_eq_getElem _ _ hr]
    exact List.getElem_mem hr
  exact shapes_ne_nil p.kind _ this

lemma initPiece_rowsOk (k : PieceKind) : RowsOk (initPiece k) := by
  intro b hb
  have h0 : (initPiece k).y = 0 := rfl
  rw [h0, zero_add]
  exact blocks_row_nonneg _ b hb

/-! ### `valid` lemmas -/

lemma blockOk_false_iff (g : Board) (p : Piece) (b : Int × Int) :
    blockOk g p b = false ↔
      (p.x + b.1 < 0 ∨ (COLS : Int) ≤ p.x + b.1 ∨
       p.y + b.2 < 0 ∨ (ROWS : Int) ≤ p.y + b.2 ∨
       truthy (cellAt g (p.y + b.2) (p.x + b.1)) = true) := by
  unfold blockOk
  split
  · next h => simp only [eq_self_iff_true, true_iff]; tauto
  · next h =>
      push_neg at h
      obtain ⟨h1, h2, h3, h4⟩ := h
      constructor
      · intro hb
        right; right; right; right
        simpa using hb
      · intro hb
        rcases hb with hb | hb | hb | hb | hb
        · omega
        · omega
        · omega
        · omega
        · simp [hb]

lemma valid_eq_true_iff (g : Board) (p : Piece) :
    valid g p = true ↔ ∀ b ∈ p.blocks, blockOk g p b = true :=
  List.all_eq_true

lemma valid_row_bounds (g : Board) (p : Piece) (hv : valid g p = true) :
    ∀ b ∈ p.blocks, 0 ≤ p.y + b.2 ∧ p.y + b.2 < (ROWS : Int) := by
  intro b hb
  have h := (valid_eq_true_iff g p).1 hv b hb
  by_contra hc
  have : blockOk g p b = false := by
    rw [blockOk_false_iff]; omega
  simp [this] at h

lemma valid_rowsOk (g : Board) (p : Piece) (hv : valid g p = true) : RowsOk p :=
  fun b hb => (valid_row_bounds g p hv b hb).1

/-! ### `lockWrite` lemmas -/

lemma lockWrite_no_overflow (p : Piece) (c : String) :
    ∀ (bs : List (Int × Int)) (g : Board), (∀ b ∈ bs, 0 ≤ p.y + b.2) →
      (lockWrite p c bs g).2 = false := by
  intro bs
  induction bs with
  | nil => intro g _; rfl
  | cons b rest ih =>
      intro g h
      have hb : 0 ≤ p.y + b.2 := h b (List.mem_cons_self _ _)
      unfold lockWrite
      rw [if_neg (by omega)]
      exact ih _ (fun x hx => h x (List.mem_cons_of_mem _ hx))

/-! ### `clear_lines` field lemmas -/

lemma clear_lines_cur (s : GameState) : (clear_lines s).cur = s.cur := by
  simp only [clear_lines]; split
  · rfl
  · split <;> rfl

lemma clear_lines_next (s : GameState) : (clear_lines s).next = s.next := by
  simp only [clear_lines]; split
  · rfl
  · split <;> rfl

lemma clear_lines_game_over (s : GameState) :
    (clear_lines s).game_over = s.game_over := by
  simp only [clear_lines]; split
  · rfl
  · split <;> rfl

lemma clear_lines_paused (s : GameState) : (clear_lines s).paused = s.paused := by
  simp only [clear_lines]; split
  · rfl
  · split <;> rfl

lemma clear_lines_player (s : GameState) :
    (clear_lines s).player_name = s.player_name := by
  simp only [clear_lines]; split
  · rfl
  · split <;> rfl

lemma clear_lines_rand (s : GameState) : (clear_lines s).rand = s.rand := by
  simp only [clear_lines]; split
  · rfl
  · split <;> rfl

lemma clear_lines_rix (s : GameState) : (clear_lines s).rix = s.rix := by
  simp only [clear_lines]; split
  · rfl
  · split <;> rfl

lemma clear_lines_events (s : GameState) : (clear_lines s).events = s.events := by
  simp only [clear_lines]; split
  · rfl
  · split <;> rfl

lemma clear_lines_score (s : GameState) :
    (clear_lines s).score = s.score + lineScore (fullRows s.board).length * s.level := by
  simp only [clear_lines]; split
  · next h => simp [h, lineScore]
  · split <;> rfl

lemma clear_lines_level_mono (s : GameState) : s.level ≤ (clear_lines s).level := by
  simp only [clear_lines]; split
  · exact le_refl _
  · split
    · exact Nat.le_succ _
    · exact le_refl _

/-! ### `lock` shape lemmas -/

/-- When no block of the current piece is above the board, `lock` takes the
write–clear–spawn path. -/
lemma lock_of_no_overflow (s : GameState) (h : RowsOk s.cur) :
    lock s =
      (let s2 := clear_lines
          { s with board := (lockWrite s.cur (COLORS s.cur.kind) s.cur.blocks s.board).1 }
       let s3 := { s2 with cur := s2.next, next := initPiece (s2.rand s2.rix),
                           rix := s2.rix + 1 }
       if valid s3.board s3.cur then s3 else persist_game { s3 with game_over := true }) := by
  have h2 := lockWrite_no_overflow s.cur (COLORS s.cur.kind) s.cur.blocks s.board h
  simp only [lock, h2, Bool.false_eq_true, if_false]

/-- Field bookkeeping for the no-overflow `lock`: the new current piece is the
old `next`, the new `next` is a fresh spawn, and a game-over raised by `lock`
(from a non-over state) means the freshly spawned current piece is invalid. -/
lemma lock_fields_no_overflow (s : GameState) (h : RowsOk s.cur) :
    (lock s).cur = s.next ∧
    (lock s).next = initPiece (s.rand s.rix) ∧
    (lock s).paused = s.paused ∧
    ((lock s).game_over = true → s.game_over = true ∨
       valid (lock s).board (lock s).cur = false) := by
  rw [lock_of_no_overflow s h]
  set t : GameState :=
    { s with board := (lockWrite s.cur (COLORS s.cur.kind) s.cur.blocks s.board).1 } with ht
  have hcur : (clear_lines t).next = s.next := by rw [clear_lines_next]
  have hrand : (clear_lines t).rand = s.rand := by rw [clear_lines_rand]
  have hrix : (clear_lines t).rix = s.rix := by rw [clear_lines_rix]
  have hgo : (clear_lines t).game_over = s.game_over := by rw [clear_lines_game_over]
  have hpa : (clear_lines t).paused = s.paused := by rw [clear_lines_paused]
  dsimp only
  split
  · next hvv =>
      refine ⟨hcur, by rw [hrand, hrix], hpa, ?_⟩
      intro hg
      left
      simpa [hgo] using hg
  · next hvv =>
      simp only [persist_game]
      split
      · refine ⟨hcur, by rw [hrand, hrix], hpa, fun _ => Or.inr ?_⟩
        simpa using hvv
      · refine ⟨hcur, by rw [hrand, hrix], hpa, fun _ => Or.inr ?_⟩
        simpa using hvv

/-! ### `dropAux` lemmas -/

lemma dropAux_fst (g : Board) :
    ∀ (fuel : Nat) (p : Piece),
      (dropAux g fuel p).1 = p.moved 0 ((dropAux g fuel p).2 : Int) := by
  intro fuel
  induction fuel with
  | zero => intro p; simp [dropAux, Piece.moved_zero]
  | succ n ih =>
      intro p
      simp only [dropAux]
      split
      · next h =>
          simp only []
          rw [ih (p.moved 0 1), Piece.moved_moved]
          push_cast
          ring_nf
      · simp [Piece.moved_zero]

lemma dropAux_steps (g : Board) :
    ∀ (fuel : Nat) (p : Piece) (k : Nat), 1 ≤ k → k ≤ (dropAux g fuel p).2 →
      valid g (p.moved 0 (k : Int)) = true := by
  intro fuel
  induction fuel with
  | zero => intro p k h1 h2; simp [dropAux] at h2; omega
  | succ n ih =>
      intro p k h1 h2
      simp only [dropAux] at h2 ⊢
      by_cases hq : valid g (p.moved 0 1) = true
      · rw [if_pos hq] at h2
        simp only [] at h2
        obtain ⟨j, rfl⟩ : ∃ j, k = j + 1 := ⟨k - 1, by omega⟩
        rcases Nat.eq_zero_or_pos j with hj | hj
        · subst hj; simpa using hq
        · have := ih (p.moved 0 1) j hj (by omega)
          rw [Piece.moved_moved] at this
          have hk : ((j : Int) + 1) = ((j + 1 : Nat) : Int) := by push_cast; ring
          rw [show ((0 : Int) + 0) = 0 by ring, show (1 + (j : Int)) = ((j + 1 : Nat) : Int) by push_cast; ring] at this
          exact this
      · rw [if_neg hq] at h2
        simp at h2
        omega

lemma dropAux_stop (g : Board) :
    ∀ (fuel : Nat) (p : Piece), (dropAux g fuel p).2 < fuel →
      valid g ((dropAux g fuel p).1.moved 0 1) = false := by
  intro fuel
  induction fuel with
  | zero => intro p h; omega
  | succ n ih =>
      intro p h
      simp only [dropAux] at h ⊢
      by_cases hq : valid g (p.moved 0 1) = true
      · rw [if_pos hq] at h ⊢
        simp only [] at h ⊢
        exact ih (p.moved 0 1) (by omega)
      · rw [if_neg hq] at h ⊢
        simpa using hq

lemma dropAux_fuel_enough (g : Board) (p : Piece)
    (hr : p.rot < (SHAPES p.kind).length) :
    (dropAux g (dropFuel p) p).2 < dropFuel p := by
  by_contra hc
  push_neg at hc
  have h1 : 1 ≤ (dropAux g (dropFuel p) p).2 := by
    have : 4 ≤ dropFuel p := by unfold dropFuel; omega
    omega
  have hval : valid g (p.moved 0 ((dropAux g (dropFuel p) p).2 : Int)) = true :=
    dropAux_steps g (dropFuel p) p _ h1 (le_refl _)
  obtain ⟨b, hb⟩ := List.exists_mem_of_ne_nil _ (blocks_ne_nil p hr)
  have h2 := (valid_row_bounds g _ hval b (by rw [Piece.moved_blocks]; exact hb)).2
  have h3 : 0 ≤ b.2 := blocks_row_nonneg p b hb
  simp only [Piece.moved] at h2
  have hfuel : dropFuel p = ((ROWS : Int) - p.y).toNat + 4 := rfl
  omega

/-- The dropped piece is valid (using validity of the start position when no
step succeeds). -/
lemma dropAux_final_valid (g : Board) (p : Piece) (hv : valid g p = true) :
    ∀ fuel, valid g ((dropAux g fuel p).1) = true := by
  intro fuel
  rcases Nat.eq_zero_or_pos (dropAux g fuel p).2 with h | h
  · rw [dropAux_fst, h]
    simpa [Piece.moved_zero] using hv
  · rw [dropAux_fst]
    exact dropAux_steps g fuel p _ h (le_refl _)

/-! ### No-op lemmas for paused / game-over states -/

lemma move_noop (s : GameState) (h : s.paused = true ∨ s.game_over = true)
    (dx dy : Int) : move s dx dy = s := by
  rcases h with h | h <;> simp [move, h]

lemma soft_drop_noop (s : GameState) (h : s.paused = true ∨ s.game_over = true) :
    soft_drop s = s := by
  rcases h with h | h <;> simp [soft_drop, h]

lemma hard_drop_noop (s : GameState) (h : s.paused = true ∨ s.game_over = true) :
    hard_drop s = s := by
  rcases h with h | h <;> simp [hard_drop, h]

lemma rotateCmd_noop (s : GameState) (h : s.paused = true ∨ s.game_over = true) :
    rotateCmd s = s := by
  rcases h with h | h <;> simp [rotateCmd, h]

lemma toggle_pause_noop (s : GameState) (h : s.game_over = true) :
    toggle_pause s = s := by
  simp [toggle_pause, h]

lemma tick_noop (s : GameState) (h : s.game_over = true) : tick s = s := by
  simp [tick, h]

lemma step_noop_of_game_over (s : GameState) (hg : s.game_over = true)
    (c : Cmd) (hc : c ≠ Cmd.restartCmd) : step c s = s := by
  cases c with
  | moveLeft => exact move_noop s (Or.inr hg) _ _
  | moveRight => exact move_noop s (Or.inr hg) _ _
  | softDrop => exact soft_drop_noop s (Or.inr hg)
  | hardDrop => exact hard_drop_noop s (Or.inr hg)
  | rotateCW => exact rotateCmd_noop s (Or.inr hg)
  | togglePause => exact toggle_pause_noop s hg
  | restartCmd => exact absurd rfl hc
  | gravity => exact tick_noop s hg

/-! ### The piece-row invariant (all blocks of `cur`/`next` at rows `≥ 0`) -/

lemma dropAux_rowsOk (g : Board) (fuel : Nat) (p : Piece) (h : RowsOk p) :
    RowsOk ((dropAux g fuel p).1) := by
  rcases Nat.eq_zero_or_pos (dropAux g fuel p).2 with h0 | h0
  · rw [dropAux_fst, h0]
    simpa [Piece.moved_zero] using h
  · rw [dropAux_fst]
    exact valid_rowsOk _ _ (dropAux_steps g fuel p _ h0 (le_refl _))

lemma lock_pieceInv (s : GameState) (h : PieceInv s) : PieceInv (lock s) := by
  obtain ⟨hc, hn, -, -⟩ := lock_fields_no_overflow s h.1
  refine ⟨?_, ?_⟩
  · rw [hc]; exact h.2
  · rw [hn]; exact initPiece_rowsOk _

lemma move_pieceInv (s : GameState) (dx dy : Int) (h : PieceInv s) :
    PieceInv (move s dx dy) := by
  simp only [move]
  split
  · exact h
  · split
    · next hv => exact ⟨valid_rowsOk _ _ hv, h.2⟩
    · split
      · exact lock_pieceInv s h
      · exact h

lemma soft_drop_pieceInv (s : GameState) (h : PieceInv s) :
    PieceInv (soft_drop s) := by
  simp only [soft_drop]
  split
  · exact h
  · exact move_pieceInv s 0 1 h

lemma hard_drop_pieceInv (s : GameState) (h : PieceInv s) :
    PieceInv (hard_drop s) := by
  simp only [hard_drop]
  split
  · exact h
  · exact lock_pieceInv _ ⟨dropAux_rowsOk _ _ _ h.1, h.2⟩

lemma rotateCmd_pieceInv (s : GameState) (h : PieceInv s) :
    PieceInv (rotateCmd s) := by
  simp only [rotateCmd]
  split
  · exact h
  · split
    · next c hsome =>
        have hv : valid s.board c = true := by
          revert hsome
          generalize ([0, -1, 1, -2, 2] : List Int) = ks
          induction ks with
          | nil => intro hsome; simp [kickSearch] at hsome
          | cons k t ih =>
              intro hsome
              simp only [kickSearch] at hsome
              split at hsome
              · next hvk => cases hsome; exact hvk
              · exact ih hsome
        exact ⟨valid_rowsOk _ _ hv, h.2⟩
    · exact h

lemma reset_pieceInv (s : GameState) : PieceInv (reset s) :=
  ⟨initPiece_rowsOk _, initPiece_rowsOk _⟩

lemma tick_pieceInv (s : GameState) (h : PieceInv s) : PieceInv (tick s) := by
  simp only [tick]
  split
  · exact move_pieceInv s 0 1 h
  · exact h

lemma toggle_pause_pieceInv (s : GameState) (h : PieceInv s) :
    PieceInv (toggle_pause s) := by
  simp only [toggle_pause]
  split
  · exact h
  · exact h

lemma step_pieceInv (c : Cmd) (s : GameState) (h : PieceInv s) :
    PieceInv (step c s) := by
  cases c with
  | moveLeft => exact move_pieceInv s _ _ h
  | moveRight => exact move_pieceInv s _ _ h
  | softDrop => exact soft_drop_pieceInv s h
  | hardDrop => exact hard_drop_pieceInv s h
  | rotateCW => exact rotateCmd_pieceInv s h
  | togglePause => exact toggle_pause_pieceInv s h
  | restartCmd => exact reset_pieceInv s
  | gravity => exact tick_pieceInv s h

lemma run_pieceInv (cs : List Cmd) (s : GameState) (h : PieceInv s) :
    PieceInv (run s cs) := by
  induction cs generalizing s with
  | nil => exact h
  | cons c t ih => exact ih _ (step_pieceInv c s h)

lemma mkInit_pieceInv (pn : Option String) (rand : Nat → PieceKind) :
    PieceInv (mkInit pn rand) :=
  ⟨initPiece_rowsOk _, initPiece_rowsOk _⟩

/-! ### Persistence-event bookkeeping -/

lemma persist_game_over_eq (s : GameState) :
    (persist_game s).game_over = s.game_over := by
  unfold persist_game; split <;> rfl

lemma persist_player (s : GameState) :
    (persist_game s).player_name = s.player_name := by
  unfold persist_game; split <;> rfl

lemma persist_events_len (s : GameState) (he : s.events = []) :
    (persist_game s).events.length = (if s.player_name.isSome then 1 else 0) := by
  unfold persist_game
  split
  · next h => simp [he, h]
  · next n h => simp [he, h]

lemma lock_player (s : GameState) : (lock s).player_name = s.player_name := by
  simp only [lock]
  split
  · rw [persist_player]
  · split
    · rw [clear_lines_player]
    · rw [persist_player]; exact clear_lines_player _

lemma move_player (s : GameState) (dx dy : Int) :
    (move s dx dy).player_name = s.player_name := by
  simp only [move]
  split
  · rfl
  · split
    · rfl
    · split
      · exact lock_player s
      · rfl

lemma step_player (c : Cmd) (s : GameState) :
    (step c s).player_name = s.player_name := by
  cases c with
  | moveLeft => exact move_player s _ _
  | moveRight => exact move_player s _ _
  | softDrop =>
      simp only [step, soft_drop]
      split
      · rfl
      · exact move_player s 0 1
  | hardDrop =>
      simp only [step, hard_drop]
      split
      · rfl
      · exact lock_player _
  | rotateCW =>
      simp only [step, rotateCmd]
      split
      · rfl
      · split <;> rfl
  | togglePause =>
      simp only [step, toggle_pause]
      split <;> rfl
  | restartCmd => rfl
  | gravity =>
      simp only [step, tick]
      split
      · exact move_player s 0 1
      · rfl

lemma evInv_of_not_over (s : GameState) (hg : s.game_over = false)
    (he : s.events = []) : EvInv s :=
  ⟨fun _ => he, fun h => by rw [hg] at h; cases h⟩

lemma lock_evInv (s : GameState) (hg : s.game_over = false)
    (he : s.events = []) : EvInv (lock s) := by
  simp only [lock]
  split
  · refine ⟨?_, ?_⟩
    · intro h
      rw [persist_game_over_eq] at h
      cases h
    · intro _
      rw [persist_player]
      exact persist_events_len _ he
  · split
    · next hv =>
        refine ⟨fun _ => ?_, fun h => ?_⟩
        · rw [clear_lines_events]; exact he
        · exfalso
          rw [clear_lines_game_over, hg] at h
          cases h
    · next hv =>
        refine ⟨?_, ?_⟩
        · intro h
          rw [persist_game_over_eq] at h
          cases h
        · intro _
          rw [persist_player]
          refine persist_events_len _ ?_
          rw [clear_lines_events]
          exact he

lemma move_evInv (s : GameState) (dx dy : Int) (hg : s.game_over = false)
    (he : s.events = []) : EvInv (move s dx dy) := by
  simp only [move]
  split
  · exact evInv_of_not_over s hg he
  · split
    · exact evInv_of_not_over _ hg he
    · split
      · exact lock_evInv s hg he
      · exact evInv_of_not_over s hg he

lemma step_evInv (c : Cmd) (s : GameState) (hc : c ≠ Cmd.restartCmd)
    (h : EvInv s) : EvInv (step c s) := by
  by_cases hg : s.game_over = true
  · rw [step_noop_of_game_over s hg c hc]
    exact h
  · have hg' : s.game_over = false := by
      cases hgo : s.game_over
      · rfl
      · exact absurd hgo hg
    have he : s.events = [] := h.1 hg'
    cases c with
    | moveLeft => exact move_evInv s _ _ hg' he
    | moveRight => exact move_evInv s _ _ hg' he
    | softDrop =>
        simp only [step, soft_drop]
        split
        · exact evInv_of_not_over s hg' he
        · have h1 := move_evInv s 0 1 hg' he
          have h2 := move_player s 0 1
          exact ⟨h1.1, fun hx => by have h3 := h1.2 hx; rw [h2] at h3; simpa [h2] using h3⟩
    | hardDrop =>
        simp only [step, hard_drop]
        split
        · exact evInv_of_not_over s hg' he
        · have h1 := lock_evInv { s with cur := (dropAux s.board (dropFuel s.cur) s.cur).1 } hg' he
          have h2 := lock_player { s with cur := (dropAux s.board (dropFuel s.cur) s.cur).1 }
          exact ⟨h1.1, fun hx => by have h3 := h1.2 hx; rw [h2] at h3; simpa [h2] using h3⟩
    | rotateCW =>
        simp only [step, rotateCmd]
        split
        · exact evInv_of_not_over s hg' he
        · split
          · exact evInv_of_not_over _ hg' he
          · exact evInv_of_not_over _ hg' he
    | togglePause =>
        simp only [step, toggle_pause]
        split
        · exact evInv_of_not_over s hg' he
        · exact evInv_of_not_over _ hg' he
    | restartCmd => exact absurd rfl hc
    | gravity =>
        simp only [step, tick]
        split
        · exact move_evInv s 0 1 hg' he
        · exact evInv_of_not_over s hg' he

lemma run_evInv (cs : List Cmd) (s : GameState) (hcs : Cmd.restartCmd ∉ cs)
    (h : EvInv s) : EvInv (run s cs) := by
  induction cs generalizing s with
  | nil => exact h
  | cons c t ih =>
      have hc : c ≠ Cmd.restartCmd := fun hh => hcs (hh ▸ List.mem_cons_self _ _)
      have ht : Cmd.restartCmd ∉ t := fun hh => hcs (List.mem_cons_of_mem _ hh)
      exact ih _ ht (step_evInv c s hc h)

lemma run_player (cs : List Cmd) (s : GameState) :
    (run s cs).player_name = s.player_name := by
  induction cs generalizing s with
  | nil => rfl
  | cons c t ih =>
      show (run (step c s) t).player_name = s.player_name
      rw [ih, step_player]

/-! ### Score bookkeeping and game-over case analysis -/

lemma persist_score (s : GameState) : (persist_game s).score = s.score := by
  unfold persist_game; split <;> rfl

/-- In the no-overflow case the whole score change of `lock` is the line-clear
award computed on the written board with the pre-lock level. -/
lemma lock_score_no_overflow (s : GameState) (h : RowsOk s.cur) :
    (lock s).score = s.score +
      lineScore (fullRows ((lockWrite s.cur (COLORS s.cur.kind)
          s.cur.blocks s.board).1)).length * s.level := by
  rw [lock_of_no_overflow s h]
  dsimp only
  split
  · rw [clear_lines_score]
  · rw [persist_score]
    show (clear_lines _).score = _
    rw [clear_lines_score]

lemma move_game_over (s : GameState) (dx dy : Int) (h : PieceInv s)
    (hg : s.game_over = false)
    (hx : (move s dx dy).game_over = true) :
    (move s dx dy).cur = s.next ∧
    valid (move s dx dy).board (move s dx dy).cur = false := by
  by_cases hguard : (s.paused || s.game_over) = true
  · exfalso
    simp only [move, hguard, if_true] at hx
    rw [hg] at hx
    cases hx
  · have hguard' : (s.paused || s.game_over) = false := by
      cases hb : (s.paused || s.game_over)
      · rfl
      · exact absurd hb hguard
    by_cases hvv : valid s.board (s.cur.moved dx dy) = true
    · exfalso
      simp only [move, hguard', Bool.false_eq_true, if_false, hvv, if_true] at hx
      rw [hg] at hx
      cases hx
    · have hvv' : valid s.board (s.cur.moved dx dy) = false := by
        cases hb : valid s.board (s.cur.moved dx dy)
        · rfl
        · exact absurd hb hvv
      by_cases hdy : dy = 1
      · subst hdy
        have hmv : move s dx 1 = lock s := by
          simp [move, hguard', hvv']
        rw [hmv] at hx ⊢
        obtain ⟨hc, -, -, hgo⟩ := lock_fields_no_overflow s h.1
        rcases hgo hx with h' | h'
        · rw [hg] at h'; cases h'
        · exact ⟨hc, h'⟩
      · exfalso
        simp only [move, hguard', Bool.false_eq_true, if_false, hvv',
          hdy, if_neg] at hx
        rw [hg] at hx
        cases hx

/-- Every transition into game over leaves, as current piece, the freshly
spawned one (the former `next`) in an invalid position. -/
lemma step_game_over (c : Cmd) (s : GameState) (h : PieceInv s)
    (hg : s.game_over = false)
    (hx : (step c s).game_over = true) :
    (step c s).cur = s.next ∧
    valid (step c s).board (step c s).cur = false := by
  cases c with
  | moveLeft => exact move_game_over s _ _ h hg hx
  | moveRight => exact move_game_over s _ _ h hg hx
  | softDrop =>
      by_cases hguard : (s.paused || s.game_over) = true
      · exfalso
        simp only [step, soft_drop, hguard, if_true] at hx
        rw [hg] at hx; cases hx
      · have hguard' : (s.paused || s.game_over) = false := by
          cases hb : (s.paused || s.game_over)
          · rfl
          · exact absurd hb hguard
        have hs : step Cmd.softDrop s =
            { move s 0 1 with score := (move s 0 1).score + 1 } := by
          simp [step, soft_drop, hguard']
        rw [hs] at hx ⊢
        have hx' : (move s 0 1).game_over = true := hx
        obtain ⟨h1, h2⟩ := move_game_over s 0 1 h hg hx'
        exact ⟨h1, h2⟩
  | hardDrop =>
      by_cases hguard : (s.paused || s.game_over) = true
      · exfalso
        simp only [step, hard_drop, hguard, if_true] at hx
        rw [hg] at hx; cases hx
      · have hguard' : (s.paused || s.game_over) = false := by
          cases hb : (s.paused || s.game_over)
          · rfl
          · exact absurd hb hguard
        set t : GameState :=
          { s with cur := (dropAux s.board (dropFuel s.cur) s.cur).1 } with htdef
        have hs : step Cmd.hardDrop s =
            { lock t with score := (lock t).score +
                (dropAux s.board (dropFuel s.cur) s.cur).2 * 2 } := by
          simp [step, hard_drop, hguard', htdef]
        rw [hs] at hx ⊢
        have hx' : (lock t).game_over = true := hx
        have hInv : RowsOk t.cur := dropAux_rowsOk _ _ _ h.1
        obtain ⟨hc, -, -, hgo⟩ := lock_fields_no_overflow t hInv
        rcases hgo hx' with h' | h'
        · rw [show t.game_over = s.game_over from rfl, hg] at h'; cases h'
        · exact ⟨hc, h'⟩
  | rotateCW =>
      exfalso
      simp only [step, rotateCmd] at hx
      split at hx
      · rw [hg] at hx; cases hx
      · split at hx
        · rw [show ∀ u : GameState, ∀ c,
              ({ u with cur := c } : GameState).game_over = u.game_over
              from fun _ _ => rfl, hg] at hx
          cases hx
        · rw [hg] at hx; cases hx
  | togglePause =>
      exfalso
      simp only [step, toggle_pause] at hx
      split at hx
      · rw [hg] at hx; cases hx
      · rw [show ({ s with paused := !s.paused } : GameState).game_over =
            s.game_over from rfl, hg] at hx
        cases hx
  | restartCmd =>
      exfalso
      have : (step Cmd.restartCmd s).game_over = false := rfl
      rw [this] at hx
      cases hx
  | gravity =>
      simp only [step, tick] at hx ⊢
      split at hx
      · next hcond =>
          rw [if_pos hcond]
          exact move_game_over s 0 1 h hg hx
      · exfalso
        rw [hg] at hx
        cases hx

/-! ## Claim theorems -/

/-- C1 (counterexample): the claim's invalidity condition treats blocks at
row `< 0` as passable, so for the `J` piece at `(x = 3, y = -1)` on the empty
board — whose only irregularity is one block at row `-1` — it predicts a valid
placement; the source's `valid` nevertheless returns `false`. -/
theorem C1_counterexample :
    valid emptyBoard { kind := PieceKind.J, rot := 0, x := 3, y := -1 } = false ∧
    specInvalidC1 emptyBoard { kind := PieceKind.J, rot := 0, x := 3, y := -1 } = false := by
  decide

/-- C1 (amended): `valid(p)` is false iff some block of `p` lies outside
columns `[0, COLS)`, or outside rows `[0, ROWS)` — including rows `< 0`,
which are rejected rather than passable — or overlaps an occupied cell. -/
theorem C1_valid_iff (g : Board) (p : Piece) :
    valid g p = false ↔
      ∃ b ∈ p.blocks,
        (p.x + b.1 < 0 ∨ (COLS : Int) ≤ p.x + b.1 ∨
         p.y + b.2 < 0 ∨ (ROWS : Int) ≤ p.y + b.2 ∨
         truthy (cellAt g (p.y + b.2) (p.x + b.1)) = true) := by
  constructor
  · intro h
    by_contra hc
    push_neg at hc
    have hall : valid g p = true := by
      rw [valid_eq_true_iff]
      intro b hb
      cases hBO : blockOk g p b
      · exfalso
        have hcond := (blockOk_false_iff g p b).1 hBO
        obtain ⟨h1, h2, h3, h4, h5⟩ := hc b hb
        rcases hcond with hcond | hcond | hcond | hcond | hcond
        · omega
        · omega
        · omega
        · omega
        · exact h5 hcond
      · rfl
    rw [hall] at h
    cases h
  · rintro ⟨b, hb, hcond⟩
    cases hv : valid g p
    · rfl
    · exfalso
      have := (valid_eq_true_iff g p).1 hv b hb
      rw [(blockOk_false_iff g p b).2 hcond] at this
      cases this

/-- C1 (witness for the amended claim): the `I` piece far off the left wall is
invalid. -/
theorem C1_valid_iff_witness :
    valid emptyBoard { kind := PieceKind.I, rot := 0, x := -5, y := 0 } = false :=
  (C1_valid_iff emptyBoard { kind := PieceKind.I, rot := 0, x := -5, y := 0 }).2
    ⟨(0, 1), by decide, by decide⟩

/-- C2: a lock invoked while some block of the current piece is at row `< 0`
sets `game_over` and stops: the board, score, lines, level, and both piece
slots are untouched (no line clear, no scoring, no spawn).  This uses the
shape-table fact that each rotation state lists a minimal-row block first, so
the write loop stops before writing anything. -/
theorem C2_lock_overflow (s : GameState)
    (h : ∃ b ∈ s.cur.blocks, s.cur.y + b.2 < 0) :
    (lock s).game_over = true ∧
    (lock s).board = s.board ∧
    (lock s).score = s.score ∧
    (lock s).lines = s.lines ∧
    (lock s).level = s.level ∧
    (lock s).cur = s.cur ∧
    (lock s).next = s.next ∧
    (lock s).rix = s.rix := by
  obtain ⟨b, hb, hneg⟩ := h
  have hmem : s.cur.blocks ∈ SHAPES s.cur.kind := by
    rcases blocks_mem_or s.cur with h' | h'
    · exact h'
    · rw [h'] at hb; cases hb
  have hhead := shapes_head_min s.cur.kind _ hmem b hb
  cases hbl : s.cur.blocks with
  | nil => rw [hbl] at hb; cases hb
  | cons b0 rest =>
      have hb0 : s.cur.y + b0.2 < 0 := by
        rw [hbl] at hhead
        simp only [List.headD_cons] at hhead
        omega
      have hw : lockWrite s.cur (COLORS s.cur.kind) s.cur.blocks s.board
          = (s.board, true) := by
        rw [hbl]
        unfold lockWrite
        rw [if_pos hb0]
      simp only [lock, hw]
      cases hpn : s.player_name <;> simp [persist_game, hpn]

/-- C2 (witness): locking the `J` piece at `y = -1` flags game over and
changes nothing else. -/
theorem C2_witness :
    (lock sOv).game_over = true ∧ (lock sOv).board = sOv.board ∧
    (lock sOv).score = sOv.score ∧ (lock sOv).next = sOv.next := by
  have h := C2_lock_overflow sOv (by decide)
  exact ⟨h.1, h.2.1, h.2.2.1, h.2.2.2.2.2.2.1⟩

/-- C5 (code bug): on a board whose rows 18 and 19 are full (with a
distinctive non-full marker row 17), the clearing loop's interleaved
delete/insert uses stale indices: after `clear_lines` a full row is still on
the board and the non-full marker row has been deleted, contradicting
"removes exactly the set of full rows". -/
theorem C5_clear_lines_bug :
    fullRows sBug.board = [18, 19] ∧
    rowFull (clear_lines sBug).board 19 = true ∧
    markerRow ∈ sBug.board ∧
    markerRow ∉ (clear_lines sBug).board := by
  decide

/-- C6: the score change of a clear is `base(n) × level` where `n` is the
number of full rows detected, `level` is the pre-clear level (any level-up
happens afterwards), the base table is `{1 ↦ 100, 2 ↦ 300, 3 ↦ 500, 4 ↦ 800}`,
and every unmapped count (0 or ≥ 5) awards 0. -/
theorem C6_clear_score (s : GameState) :
    (clear_lines s).score =
      s.score + lineScore (fullRows s.board).length * s.level ∧
    lineScore 0 = 0 ∧ lineScore 1 = 100 ∧ lineScore 2 = 300 ∧
    lineScore 3 = 500 ∧ lineScore 4 = 800 ∧
    (∀ n : Nat, 5 ≤ n → lineScore n = 0) := by
  refine ⟨clear_lines_score s, rfl, rfl, rfl, rfl, rfl, ?_⟩
  intro n hn
  match n, hn with
  | (m + 5), _ => rfl

/-- C6 (witness): a one-row clear at level 1 awards `100 × 1`, and counts
like 9 award 0. -/
theorem C6_witness :
    (clear_lines sLvl).score =
      sLvl.score + lineScore (fullRows sLvl.board).length * sLvl.level ∧
    lineScore 9 = 0 :=
  ⟨(C6_clear_score sLvl).1, (C6_clear_score sLvl).2.2.2.2.2.2 9 (by decide)⟩

/-- C7: after a (non-empty) clear adds its row count to `lines`, if
`lines / 10 + 1` exceeds the level then the level rises by exactly 1 and the
delay becomes `max(80, 500 − 40·(level−1))` for the new level; otherwise level
and delay are untouched; the level never decreases. -/
theorem C7_leveling (s : GameState) :
    s.level ≤ (clear_lines s).level ∧
    (((fullRows s.board).length ≠ 0 ∧
        (clear_lines s).lines / LINES_PER_LEVEL + 1 > s.level) →
      (clear_lines s).level = s.level + 1 ∧
      (clear_lines s).delay =
        max 80 (START_DELAY -
          LEVEL_STEP * (((clear_lines s).level : Int) - 1))) ∧
    ((clear_lines s).lines / LINES_PER_LEVEL + 1 ≤ s.level →
      (clear_lines s).level = s.level ∧ (clear_lines s).delay = s.delay) := by
  simp only [clear_lines]
  split
  · next h0 =>
      exact ⟨le_refl _, fun hx => absurd h0 hx.1, fun _ => ⟨rfl, rfl⟩⟩
  · next h0 =>
      split
      · next hup =>
          refine ⟨Nat.le_succ _, fun _ => ⟨rfl, ?_⟩, fun hle => ?_⟩
          · push_cast
            ring_nf
          · exfalso
            dsimp only at hle
            exact absurd hup (by omega)
      · next hup =>
          refine ⟨le_refl _, fun hx => ?_, fun _ => ⟨rfl, rfl⟩⟩
          exfalso
          have hx2 := hx.2
          dsimp only at hx2
          exact absurd hx2 (by omega)

/-- C7 (witness): clearing one row at 9 lines crosses the 10-line boundary:
level 1 → 2 and the delay is recomputed. -/
theorem C7_witness :
    (clear_lines sLvl).level = sLvl.level + 1 ∧
    (clear_lines sLvl).delay =
      max 80 (START_DELAY - LEVEL_STEP * (((clear_lines sLvl).level : Int) - 1)) :=
  (C7_leveling sLvl).2.1 (by decide)

/-- C8: while paused or over, `move`, `soft_drop`, `hard_drop`, and `rotate`
leave the whole state unchanged; once `game_over` holds, pause toggling is
also ignored and every restart-free command sequence leaves the state
unchanged. -/
theorem C8_noops (s : GameState) (h : s.paused = true ∨ s.game_over = true) :
    (∀ dx dy : Int, move s dx dy = s) ∧
    soft_drop s = s ∧
    hard_drop s = s ∧
    rotateCmd s = s ∧
    (s.game_over = true →
      toggle_pause s = s ∧
      ∀ cs : List Cmd, Cmd.restartCmd ∉ cs → run s cs = s) := by
  refine ⟨fun dx dy => move_noop s h dx dy, soft_drop_noop s h,
    hard_drop_noop s h, rotateCmd_noop s h, fun hg => ⟨toggle_pause_noop s hg, ?_⟩⟩
  intro cs hcs
  induction cs with
  | nil => rfl
  | cons c t ih =>
      have hc : c ≠ Cmd.restartCmd := fun hh => hcs (hh ▸ List.mem_cons_self _ _)
      show run (step c s) t = s
      rw [step_noop_of_game_over s hg c hc]
      exact ih (fun hh => hcs (List.mem_cons_of_mem _ hh))

/-- C8 (witness): in a paused session a move and a hard drop change
nothing. -/
theorem C8_witness : move sPaused 1 0 = sPaused ∧ hard_drop sPaused = sPaused :=
  ⟨(C8_noops sPaused (Or.inl rfl)).1 1 0, (C8_noops sPaused (Or.inl rfl)).2.2.1⟩

/-- C3: in a running state, `rotate` either installs the rotated candidate
shifted by the first offset of `[0, -1, 1, -2, 2]` that validates (all
earlier offsets failing), or — when no offset validates — leaves the whole
state unchanged; an installed placement is always valid. -/
theorem C3_rotate (s : GameState) (hp : s.paused = false)
    (hg : s.game_over = false) :
    (∃ n : Nat, n < 5 ∧
        valid s.board
          (s.cur.rotated.moved (([0, -1, 1, -2, 2] : List Int).getD n 0) 0) = true ∧
        (∀ m : Nat, m < n →
          valid s.board
            (s.cur.rotated.moved (([0, -1, 1, -2, 2] : List Int).getD m 0) 0) = false) ∧
        rotateCmd s =
          { s with cur :=
              s.cur.rotated.moved (([0, -1, 1, -2, 2] : List Int).getD n 0) 0 }) ∨
    ((∀ k ∈ ([0, -1, 1, -2, 2] : List Int),
        valid s.board (s.cur.rotated.moved k 0) = false) ∧
      rotateCmd s = s) := by
  have hguard : (s.paused || s.game_over) = false := by rw [hp, hg]; rfl
  cases h0 : valid s.board (s.cur.rotated.moved 0 0) with
  | true =>
      left
      exact ⟨0, by omega, h0, fun m hm => absurd hm (by omega),
        by simp [rotateCmd, hguard, kickSearch, h0]⟩
  | false =>
  cases h1 : valid s.board (s.cur.rotated.moved (-1) 0) with
  | true =>
      left
      refine ⟨1, by omega, h1, fun m hm => ?_, ?_⟩
      · interval_cases m
        exact h0
      · simp [rotateCmd, hguard, kickSearch, h0, h1]
  | false =>
  cases h2 : valid s.board (s.cur.rotated.moved 1 0) with
  | true =>
      left
      refine ⟨2, by omega, h2, fun m hm => ?_, ?_⟩
      · interval_cases m
        · exact h0
        · exact h1
      · simp [rotateCmd, hguard, kickSearch, h0, h1, h2]
  | false =>
  cases h3 : valid s.board (s.cur.rotated.moved (-2) 0) with
  | true =>
      left
      refine ⟨3, by omega, h3, fun m hm => ?_, ?_⟩
      · interval_cases m
        · exact h0
        · exact h1
        · exact h2
      · simp [rotateCmd, hguard, kickSearch, h0, h1, h2, h3]
  | false =>
  cases h4 : valid s.board (s.cur.rotated.moved 2 0) with
  | true =>
      left
      refine ⟨4, by omega, h4, fun m hm => ?_, ?_⟩
      · interval_cases m
        · exact h0
        · exact h1
        · exact h2
        · exact h3
      · simp [rotateCmd, hguard, kickSearch, h0, h1, h2, h3, h4]
  | false =>
      right
      refine ⟨fun k hk => ?_, ?_⟩
      · fin_cases hk
        · exact h0
        · exact h1
        · exact h2
        · exact h3
        · exact h4
      · simp [rotateCmd, hguard, kickSearch, h0, h1, h2, h3, h4]

/-- C3 (witness): on the fresh empty-board session the rotation validates
with no kick: the rotated `I` piece is installed unshifted. -/
theorem C3_witness :
    rotateCmd sRun = { sRun with cur := sRun.cur.rotated.moved 0 0 } := by
  have h := C3_rotate sRun rfl rfl
  have h0 : valid sRun.board (sRun.cur.rotated.moved 0 0) = true := by decide
  rcases h with ⟨n, hn, hv, hmin, heq⟩ | ⟨hall, -⟩
  · rcases Nat.eq_zero_or_pos n with h' | h'
    · subst h'
      exact heq
    · exact absurd (hmin 0 h') (by simp [h0])
  · exact absurd (hall 0 (by decide)) (by simp [h0])

/-- C4: in a running state with a valid current piece, `hard_drop` moves the
piece down by exactly `d` steps — every position up to `d` steps down is
valid and one further step is invalid — then locks it and adds `2·d` to the
score on top of the line-clear award of the triggered lock (computed from the
written board at the pre-lock level). -/
theorem C4_hard_drop (s : GameState) (hp : s.paused = false)
    (hg : s.game_over = false) (hv : valid s.board s.cur = true)
    (hr : s.cur.rot < (SHAPES s.cur.kind).length) :
    let d : Nat := (dropAux s.board (dropFuel s.cur) s.cur).2
    let t : GameState := { s with cur := s.cur.moved 0 (d : Int) }
    (∀ k : Nat, k ≤ d → valid s.board (s.cur.moved 0 (k : Int)) = true) ∧
    valid s.board (s.cur.moved 0 ((d : Int) + 1)) = false ∧
    hard_drop s = { lock t with score := (lock t).score + d * 2 } ∧
    (hard_drop s).score =
      s.score +
        lineScore (fullRows ((lockWrite t.cur (COLORS s.cur.kind)
          s.cur.blocks s.board).1)).length * s.level + d * 2 := by
  intro d t
  have hfst : (dropAux s.board (dropFuel s.cur) s.cur).1 =
      s.cur.moved 0 ((dropAux s.board (dropFuel s.cur) s.cur).2 : Int) :=
    dropAux_fst _ _ _
  have hsteps : ∀ k : Nat, k ≤ (dropAux s.board (dropFuel s.cur) s.cur).2 →
      valid s.board (s.cur.moved 0 (k : Int)) = true := by
    intro k hk
    rcases Nat.eq_zero_or_pos k with h' | h'
    · subst h'
      simpa [Piece.moved_zero] using hv
    · exact dropAux_steps s.board (dropFuel s.cur) s.cur k h' hk
  have hfuel : (dropAux s.board (dropFuel s.cur) s.cur).2 < dropFuel s.cur :=
    dropAux_fuel_enough s.board s.cur hr
  have hstop : valid s.board
      (s.cur.moved 0
        (((dropAux s.board (dropFuel s.cur) s.cur).2 : Int) + 1)) = false := by
    have h1 := dropAux_stop s.board (dropFuel s.cur) s.cur hfuel
    rw [hfst, Piece.moved_moved] at h1
    simpa using h1
  have hguard : (s.paused || s.game_over) = false := by rw [hp, hg]; rfl
  have hmain : hard_drop s = { lock t with score := (lock t).score + d * 2 } := by
    show hard_drop s = _
    simp only [hard_drop, hguard, Bool.false_eq_true, if_false]
    rw [hfst]
  refine ⟨hsteps, hstop, hmain, ?_⟩
  rw [hmain]
  have hro : RowsOk t.cur := valid_rowsOk _ _ (hsteps _ (le_refl _))
  have hsc := lock_score_no_overflow t hro
  show (lock t).score + d * 2 = _
  rw [hsc]
  rfl

/-- C4 (witness): on the fresh session the spawned `I` piece drops 18 steps;
one more downward step from the final position is invalid. -/
theorem C4_witness :
    valid sRun.board
      (sRun.cur.moved 0
        (((dropAux sRun.board (dropFuel sRun.cur) sRun.cur).2 : Int) + 1)) = false :=
  (C4_hard_drop sRun rfl rfl (by decide) (by decide)).2.1

/-- C9 (counterexample): a hard drop that triggers game over persists the
record *before* the `+2·d` drop bonus is added: the session ends with score 2
but the emitted record carries score 0 — the record does not include the
score added by the command that triggered the game over. -/
theorem C9_counterexample :
    (hard_drop sC9).game_over = true ∧
    (hard_drop sC9).events = [("p", 0, 0, 1)] ∧
    (hard_drop sC9).score = 2 ∧
    (hard_drop sC9).lines = 0 ∧
    (hard_drop sC9).level = 1 := by
  decide

/-- C9 (amended): along any restart-free command sequence from a fresh
running session, no event is emitted before game over, and at game over
exactly one event has been emitted when a player identity is set and none
otherwise (the record carries the stats at the transition, which may exclude
the soft/hard-drop bonus the triggering command adds after the lock). -/
theorem C9_persist_once (s : GameState) (h1 : s.game_over = false)
    (h2 : s.events = []) (cs : List Cmd) (h3 : Cmd.restartCmd ∉ cs) :
    ((run s cs).game_over = false → (run s cs).events = []) ∧
    ((run s cs).game_over = true →
      (run s cs).events.length = (if s.player_name.isSome then 1 else 0)) := by
  have h := run_evInv cs s h3 (evInv_of_not_over s h1 h2)
  refine ⟨h.1, fun hx => ?_⟩
  have h4 := h.2 hx
  rwa [run_player] at h4

/-- C9 (witness): the hard drop ending the `sC9` session emits exactly one
record (its player identity is set). -/
theorem C9_witness :
    (run sC9 [Cmd.hardDrop]).game_over = true ∧
    (run sC9 [Cmd.hardDrop]).events.length =
      (if sC9.player_name.isSome then 1 else 0) := by
  have h := C9_persist_once sC9 rfl rfl [Cmd.hardDrop] (by decide)
  exact ⟨by decide, h.2 (by decide)⟩

/-- C10: along every command sequence from a fresh session, every block of
the current piece sits at row `≥ 0` (pieces spawn at `(3, 0)` with
non-negative offsets and `valid` rejects rows `< 0`), so the write loop of
`lock` never raises its row-`< 0` overflow signal; and any transition into
game over installs, as current piece, the freshly spawned one in an invalid
position. -/
theorem C10_no_overflow (pn : Option String) (rand : Nat → PieceKind)
    (cs : List Cmd) :
    (∀ b ∈ (run (mkInit pn rand) cs).cur.blocks,
        0 ≤ (run (mkInit pn rand) cs).cur.y + b.2) ∧
    (lockWrite (run (mkInit pn rand) cs).cur
        (COLORS (run (mkInit pn rand) cs).cur.kind)
        (run (mkInit pn rand) cs).cur.blocks
        (run (mkInit pn rand) cs).board).2 = false ∧
    (∀ c : Cmd, (run (mkInit pn rand) cs).game_over = false →
      (step c (run (mkInit pn rand) cs)).game_over = true →
        (step c (run (mkInit pn rand) cs)).cur = (run (mkInit pn rand) cs).next ∧
        valid (step c (run (mkInit pn rand) cs)).board
          (step c (run (mkInit pn rand) cs)).cur = false) := by
  have hInv : PieceInv (run (mkInit pn rand) cs) :=
    run_pieceInv cs _ (mkInit_pieceInv pn rand)
  refine ⟨hInv.1, lockWrite_no_overflow _ _ _ _ hInv.1, ?_⟩
  intro c hg hx
  exact step_game_over c _ hInv hg hx

/-- C10 (witness): in the fresh session the write loop raises no overflow. -/
theorem C10_witness :
    (lockWrite (mkInit none randI).cur (COLORS (mkInit none randI).cur.kind)
        (mkInit none randI).cur.blocks (mkInit none randI).board).2 = false :=
  (C10_no_overflow none randI []).2.1

end TetrisPy

